import Mathlib

/-!
Verification of `lstm-text-generation/model_from_initials.js`.

The file shallowly embeds the two functions of the source file:

* `sample(probs, temperature)` — temperature-scaled multinomial sampling
  (source lines 96–103);
* `generateText(model, textData, sentenceIndices, initialLetters,
  temperature, onTextGenerationChar)` — the acrostic generation loop
  (source lines 35–84).

Floating-point arithmetic is modelled over `ℝ`, with the single
non-finite value that actually arises (`Math.log(0) = -Infinity`)
represented explicitly by the type `XR` below.  The implicit global
random source consumed by `tf.multinomial` is made explicit: each draw
consumes one uniform value `u ∈ [0,1)` from a supplied stream, exactly
as the repository's own design notes suggest for a reimplementation.
JavaScript array aliasing and in-place mutation (`slice`, `push`) are
modelled with an explicit heap of arrays, so that statements about
"the caller's array is not mutated" are meaningful.
-/

namespace ModelFromInitials

/-- Extended-real value produced by `tf.log` on a non-negative input:
either `-Infinity` (for input `0`) or a finite real. -/
inductive XR where
  | negInf : XR
  | fin : ℝ → XR

/-- Elementwise semantics of `tf.log` on one non-negative entry:
`log 0 = -Infinity`, otherwise the real logarithm. -/
noncomputable def xrLog (p : ℝ) : XR :=
  if p = 0 then XR.negInf else XR.fin (Real.log p)

/-- Division of a logit by the (strictly positive) clamped temperature:
`-Infinity / t = -Infinity` and finite values divide as reals.  The
divisor in `sample` is `max temperature 1e-6 > 0`, so only the
positive-divisor case is ever exercised. -/
noncomputable def xrDivPos (l : XR) (t : ℝ) : XR :=
  match l with
  | XR.negInf => XR.negInf
  | XR.fin x => XR.fin (x / t)

/-- Exponential sending a logit to its unnormalized categorical weight:
`exp (-Infinity) = 0`, matching IEEE `Math.exp(-Infinity)`. -/
noncomputable def xrExp (l : XR) : ℝ :=
  match l with
  | XR.negInf => 0
  | XR.fin x => Real.exp x

/-- Inverse-CDF walk of the tfjs CPU multinomial kernel: scan the
weights accumulating a running sum `a`; return the first index whose
cumulative sum strictly exceeds the target `t`; if the target is never
exceeded the kernel leaves the result at the last index
(`numEvents - 1`), which the `[]` case renders as `i - 1`. -/
noncomputable def drawAux : List ℝ → ℝ → ℝ → ℕ → ℕ
  | [], _, _, i => i - 1
  | w :: ws, t, a, i => if t < a + w then i else drawAux ws t (a + w) (i + 1)

/-- Probabilities computed by `tf.multinomial` from unnormalized logits
(`isNormalized = false`): the softmax of the logits.  The max-logit
subtraction tfjs performs for numerical stability cancels in the
normalization and is therefore omitted; `-Infinity` logits get weight
`0`.  When every logit is `-Infinity` the division is `0 / 0`, which
(like the `NaN` it produces in tfjs) never satisfies the CDF test. -/
noncomputable def softmaxProbs (logits : List XR) : List ℝ :=
  let ws := logits.map xrExp
  ws.map (fun w => w / ws.sum)

/-- Embedding of `tf.multinomial(logits, 1, null, false).dataSync()[0]`:
normalize the logits by softmax, then draw the single sample by the
inverse-CDF walk with the uniform value `u`. -/
noncomputable def multinomialDraw (logits : List XR) (u : ℝ) : ℕ :=
  drawAux (softmaxProbs logits) u 0 0

/-- Embedding of the source's `sample` (lines 96–103):

`tf.div(tf.log(probs), Math.max(temperature, 1e-6))` builds the logits,
and `tf.multinomial(logits, 1, null, isNormalized=false)` draws one
index, consuming the uniform value `u`.  `tf.tidy` only affects memory
and is the identity on the returned value. -/
noncomputable def sample (probs : List ℝ) (temperature : ℝ) (u : ℝ) : ℕ :=
  multinomialDraw
    ((probs.map xrLog).map (fun l => xrDivPos l (max temperature (1 / 1000000)))) u

/-- Modelled from the spec's words (§4.1 Algorithm): the logits
`logits[i] = log(probs[i]) / max(temperature, 1e-6)`. -/
noncomputable def specLogits (probs : List ℝ) (temperature : ℝ) : List XR :=
  probs.map (fun p => xrDivPos (xrLog p) (max temperature (1 / 1000000)))

/-- Modelled from the spec's words (§4.1 Algorithm): draw one index from
the categorical distribution implied by treating `logits` as
unnormalized log-probabilities, i.e. an inverse-CDF draw on the raw
weights `exp logits[i]` with the uniform value `u` scaled by the total
weight. -/
noncomputable def categoricalDraw (logits : List XR) (u : ℝ) : ℕ :=
  let ws := logits.map xrExp
  drawAux ws (u * ws.sum) 0 0

/-! ### Lemmas about the inverse-CDF walk -/

theorem drawAux_lt (ws : List ℝ) (t a : ℝ) (i : ℕ) (hne : ws ≠ []) :
    drawAux ws t a i < i + ws.length := by
  induction ws generalizing a i with
  | nil => exact absurd rfl hne
  | cons w ws ih =>
    rw [drawAux]
    by_cases h : t < a + w
    · simp [h]
    · rw [if_neg h]
      rcases List.eq_nil_or_concat ws with h0 | h0
      · subst h0
        rw [drawAux]
        simp
      · have hne' : ws ≠ [] := by
          rcases h0 with ⟨l, b, rfl⟩
          simp
        have := ih (a + w) (i + 1) hne'
        simp only [List.length_cons]
        omega

theorem drawAux_cases (ws : List ℝ) (t a : ℝ) (i : ℕ) (h : a ≤ t) :
    (∃ k, k < ws.length ∧ drawAux ws t a i = i + k ∧ 0 < ws.getD k 0) ∨
      (drawAux ws t a i = i + ws.length - 1 ∧ a + ws.sum ≤ t) := by
  induction ws generalizing a i with
  | nil =>
    right
    rw [drawAux]
    simpa using h
  | cons w ws ih =>
    rw [drawAux]
    by_cases hlt : t < a + w
    · left
      refine ⟨0, by simp, by simp [hlt], ?_⟩
      have : a < a + w := lt_of_le_of_lt h hlt
      simpa using this
    · rw [if_neg hlt]
      have h' : a + w ≤ t := le_of_not_lt hlt
      rcases ih (a + w) (i + 1) h' with ⟨k, hk, heq, hpos⟩ | ⟨heq, hsum⟩
      · left
        exact ⟨k + 1, by simpa using hk, by omega, by simpa using hpos⟩
      · right
        constructor
        · rw [heq]
          simp only [List.length_cons]
          omega
        · rw [List.sum_cons]
          linarith

theorem drawAux_map_div (ws : List ℝ) (s : ℝ) (hs : 0 < s) (t a : ℝ) (i : ℕ) :
    drawAux (ws.map (fun w => w / s)) t a i = drawAux ws (t * s) (a * s) i := by
  induction ws generalizing a i with
  | nil => simp [drawAux]
  | cons w ws ih =>
    simp only [List.map_cons, drawAux]
    have key : (a + w / s) * s = a * s + w := by field_simp
    have hiff : t < a + w / s ↔ t * s < a * s + w := by
      rw [← key, mul_lt_mul_right hs]
    by_cases hlt : t < a + w / s
    · rw [if_pos hlt, if_pos (hiff.mp hlt)]
    · rw [if_neg hlt, if_neg (fun hc => hlt (hiff.mpr hc))]
      rw [ih (a + w / s) (i + 1), key]

theorem drawAux_all_zero (ws : List ℝ) (t a : ℝ) (i : ℕ)
    (hz : ∀ w ∈ ws, w = 0) (h : a ≤ t) :
    drawAux ws t a i = i + ws.length - 1 := by
  induction ws generalizing a i with
  | nil => simp [drawAux]
  | cons w ws ih =>
    have hw : w = 0 := hz w (by simp)
    rw [drawAux, hw, add_zero, if_neg (not_lt.mpr h)]
    rw [ih a (i + 1) (fun w hw' => hz w (by simp [hw'])) h]
    simp only [List.length_cons]
    omega

theorem xrExp_nonneg (l : XR) : 0 ≤ xrExp l := by
  cases l with
  | negInf => simp [xrExp]
  | fin x => exact le_of_lt (by simpa [xrExp] using Real.exp_pos x)

theorem xrExp_pos_of_ne (l : XR) (h : l ≠ XR.negInf) : 0 < xrExp l := by
  cases l with
  | negInf => exact absurd rfl h
  | fin x => simpa [xrExp] using Real.exp_pos x

theorem sum_nonneg_of_forall (ws : List ℝ) (h : ∀ w ∈ ws, 0 ≤ w) : 0 ≤ ws.sum := by
  induction ws with
  | nil => simp
  | cons w ws ih =>
    rw [List.sum_cons]
    have := h w (by simp)
    have := ih (fun x hx => h x (by simp [hx]))
    linarith

theorem sum_all_zero (ws : List ℝ) (hnn : ∀ w ∈ ws, 0 ≤ w) (hsum : ws.sum = 0) :
    ∀ w ∈ ws, w = 0 := by
  induction ws with
  | nil => simp
  | cons w ws ih =>
    rw [List.sum_cons] at hsum
    have hw : 0 ≤ w := hnn w (by simp)
    have hws : 0 ≤ ws.sum := sum_nonneg_of_forall ws (fun x hx => hnn x (by simp [hx]))
    have hw0 : w = 0 := by linarith
    have hs0 : ws.sum = 0 := by linarith
    intro x hx
    rcases List.mem_cons.mp hx with rfl | hx
    · exact hw0
    · exact ih (fun y hy => hnn y (by simp [hy])) hs0 x hx

theorem sum_map_div (ws : List ℝ) (s : ℝ) :
    (ws.map (fun w => w / s)).sum = ws.sum / s := by
  induction ws with
  | nil => simp
  | cons w ws ih =>
    simp only [List.map_cons, List.sum_cons, ih]
    ring

/-- Normalizing the weights by softmax and drawing with target `u` gives
the same index as drawing on the raw weights with target `u * total`. -/
theorem multinomialDraw_eq_categoricalDraw (logits : List XR) (u : ℝ) (hu : 0 ≤ u) :
    multinomialDraw logits u = categoricalDraw logits u := by
  simp only [multinomialDraw, softmaxProbs, categoricalDraw]
  have hnn : ∀ w ∈ logits.map xrExp, 0 ≤ w := by
    intro w hw
    rcases List.mem_map.mp hw with ⟨l, _, rfl⟩
    exact xrExp_nonneg _
  rcases lt_or_eq_of_le (sum_nonneg_of_forall _ hnn) with hs | hs
  · rw [drawAux_map_div (logits.map xrExp) (logits.map xrExp).sum hs u 0 0, zero_mul]
  · have hz : ∀ w ∈ logits.map xrExp, w = 0 := sum_all_zero _ hnn hs.symm
    have hz' : ∀ w ∈ (logits.map xrExp).map (fun w => w / (logits.map xrExp).sum), w = 0 := by
      intro w hw
      rcases List.mem_map.mp hw with ⟨x, hx, rfl⟩
      rw [hz x hx]
      simp
    rw [drawAux_all_zero _ u 0 0 hz' hu,
      drawAux_all_zero (logits.map xrExp) (u * (logits.map xrExp).sum) 0 0 hz
        (by rw [← hs, mul_zero])]
    simp

/-- C1 — `sample` computes `logits[i] = log(probs[i]) / max(temperature, 1e-6)`
for every vocabulary index and returns the index of a categorical draw on
those logits taken as unnormalized log-probabilities (the softmax
normalization inside `tf.multinomial` cancels against the scaling of the
uniform value by the total weight); in particular any `temperature ≤ 0` is
replaced by the floor `1e-6` in the divisor. -/
theorem sample_eq_categoricalDraw_on_specLogits
    (probs : List ℝ) (temperature u : ℝ) (hu : 0 ≤ u) :
    sample probs temperature u = categoricalDraw (specLogits probs temperature) u ∧
      (temperature ≤ 0 → max temperature (1 / 1000000 : ℝ) = 1 / 1000000) := by
  constructor
  · have hlist : (probs.map xrLog).map (fun l => xrDivPos l (max temperature (1 / 1000000)))
        = specLogits probs temperature := by
      rw [specLogits, List.map_map]
      rfl
    rw [sample, hlist]
    exact multinomialDraw_eq_categoricalDraw _ u hu
  · intro hT
    exact max_eq_right (by linarith [show (0:ℝ) < 1 / 1000000 by norm_num])

/-- Witness for C1 at `probs = [1]`, `temperature = -1`, `u = 0`. -/
theorem sample_eq_categoricalDraw_on_specLogits_witness :
    (0 : ℝ) ≤ 0 ∧
      (sample [1] (-1) 0 = categoricalDraw (specLogits [1] (-1)) 0 ∧
        max (-1 : ℝ) (1 / 1000000) = 1 / 1000000) := by
  have h := sample_eq_categoricalDraw_on_specLogits [1] (-1) 0 le_rfl
  exact ⟨le_rfl, h.1, h.2 (by norm_num)⟩

/-- Length of the softmax probability list equals the number of logits. -/
theorem softmaxProbs_length (logits : List XR) :
    (softmaxProbs logits).length = logits.length := by
  rw [softmaxProbs]
  simp

/-- The drawn index is always below the number of outcomes. -/
theorem sample_lt_length (probs : List ℝ) (temperature u : ℝ) (hne : probs ≠ []) :
    sample probs temperature u < probs.length := by
  rw [sample, multinomialDraw]
  have hne' : softmaxProbs ((probs.map xrLog).map
      (fun l => xrDivPos l (max temperature (1 / 1000000)))) ≠ [] := by
    rw [← List.length_pos_iff_ne_nil, softmaxProbs_length]
    simpa [← List.length_pos_iff_ne_nil] using hne
  have h := drawAux_lt _ u 0 0 hne'
  rwa [softmaxProbs_length, List.length_map, List.length_map, zero_add] at h

/-- C5 — for every `probs` of length `charSetSize` with non-negative entries
and every `temperature > 0`, `sample` returns an index in
`[0, charSetSize - 1]` (stated as `< charSetSize`; the result is a natural
number, hence `≥ 0`). -/
theorem sample_in_range (probs : List ℝ) (charSetSize : ℕ) (temperature u : ℝ)
    (hlen : probs.length = charSetSize) (hcs : 0 < charSetSize)
    (hnn : ∀ p ∈ probs, 0 ≤ p) (hT : 0 < temperature) :
    sample probs temperature u < charSetSize := by
  have hne : probs ≠ [] := by
    rw [← List.length_pos_iff_ne_nil, hlen]
    exact hcs
  have := sample_lt_length probs temperature u hne
  omega

/-- Witness for C5 at `probs = [1/2, 1/2]`, `temperature = 1`, `u = 0`. -/
theorem sample_in_range_witness :
    ([(1:ℝ)/2, 1/2].length = 2 ∧ 0 < 2 ∧ (∀ p ∈ [(1:ℝ)/2, 1/2], 0 ≤ p) ∧ (0:ℝ) < 1) ∧
      sample [(1:ℝ)/2, 1/2] 1 0 < 2 := by
  refine ⟨⟨by norm_num, by norm_num, ?_, by norm_num⟩, ?_⟩
  · intro p hp
    rcases List.mem_cons.mp hp with rfl | hp
    · norm_num
    · rcases List.mem_cons.mp hp with rfl | hp
      · norm_num
      · simp at hp
  · exact sample_in_range [(1:ℝ)/2, 1/2] 2 1 0 (by norm_num) (by norm_num)
      (by
        intro p hp
        rcases List.mem_cons.mp hp with rfl | hp
        · norm_num
        · rcases List.mem_cons.mp hp with rfl | hp
          · norm_num
          · simp at hp)
      (by norm_num)

theorem sum_pos_of_exists (ws : List ℝ) (hnn : ∀ w ∈ ws, 0 ≤ w)
    (hex : ∃ w ∈ ws, 0 < w) : 0 < ws.sum := by
  induction ws with
  | nil => simp at hex
  | cons w ws ih =>
    rw [List.sum_cons]
    have hw : 0 ≤ w := hnn w (by simp)
    have hws : 0 ≤ ws.sum := sum_nonneg_of_forall ws (fun x hx => hnn x (by simp [hx]))
    rcases hex with ⟨x, hx, hxpos⟩
    rcases List.mem_cons.mp hx with rfl | hx
    · linarith
    · have := ih (fun y hy => hnn y (by simp [hy])) ⟨x, hx, hxpos⟩
      linarith

/-- C4 — for every probability vector `probs` (non-negative entries summing
to `1`) in which the entry at index `i` is exactly zero, `sample` still
returns an index (it is a total function, returning an in-range index: the
`-Infinity` logit produced by `log 0` is tolerated), and the index `i`
itself is never the returned sample. -/
theorem sample_never_selects_zero_prob (probs : List ℝ) (temperature u : ℝ) (i : ℕ)
    (hnn : ∀ p ∈ probs, 0 ≤ p) (hsum : probs.sum = 1)
    (hu0 : 0 ≤ u) (hu1 : u < 1) (hzero : probs.getD i 0 = 0) :
    sample probs temperature u < probs.length ∧ sample probs temperature u ≠ i := by
  have hne : probs ≠ [] := by
    intro hc
    rw [hc] at hsum
    simp at hsum
  refine ⟨sample_lt_length probs temperature u hne, ?_⟩
  intro hcontra
  have hex : ∃ p ∈ probs, 0 < p := by
    by_contra hc
    push_neg at hc
    have hall : ∀ p ∈ probs, p = 0 := fun p hp => le_antisymm (hc p hp) (hnn p hp)
    rw [List.sum_eq_zero hall] at hsum
    norm_num at hsum
  have hlist : (probs.map xrLog).map
      (fun l => xrDivPos l (max temperature (1 / 1000000)))
      = probs.map (fun p => xrDivPos (xrLog p) (max temperature (1 / 1000000))) := by
    rw [List.map_map]
    rfl
  set c := max temperature (1 / 1000000 : ℝ) with hc
  set ws := probs.map (fun p => xrExp (xrDivPos (xrLog p) c)) with hwsdef
  have hws : (probs.map (fun p => xrDivPos (xrLog p) c)).map xrExp = ws := by
    rw [hwsdef, List.map_map]
    rfl
  have hwsnn : ∀ w ∈ ws, 0 ≤ w := by
    intro w hw
    rcases List.mem_map.mp hw with ⟨p, _, rfl⟩
    exact xrExp_nonneg _
  have hwspos : ∃ w ∈ ws, 0 < w := by
    rcases hex with ⟨p, hp, hppos⟩
    refine ⟨xrExp (xrDivPos (xrLog p) c), List.mem_map.mpr ⟨p, hp, rfl⟩, ?_⟩
    apply xrExp_pos_of_ne
    rw [xrLog, if_neg (ne_of_gt hppos)]
    simp [xrDivPos]
  have hs : 0 < ws.sum := sum_pos_of_exists ws hwsnn hwspos
  have hsample : sample probs temperature u
      = drawAux (ws.map (fun w => w / ws.sum)) u 0 0 := by
    rw [sample, multinomialDraw, ← hc, hlist]
    simp only [softmaxProbs]
    rw [hws]
  rcases drawAux_cases (ws.map (fun w => w / ws.sum)) u 0 0 hu0 with
    ⟨k, hk, heq, hpos⟩ | ⟨_, habs⟩
  · rw [List.length_map] at hk
    have hwslen : ws.length = probs.length := by
      rw [hwsdef, List.length_map]
    have hkpr : k < probs.length := hwslen ▸ hk
    have hget : (ws.map (fun w => w / ws.sum)).getD k 0 = ws.getD k 0 / ws.sum := by
      rw [List.getD_eq_getElem _ _ (by rw [List.length_map]; exact hk),
        List.getD_eq_getElem _ _ hk]
      simp
    rw [hget] at hpos
    have hwk : 0 < ws.getD k 0 := by
      by_contra hle
      push_neg at hle
      have : ws.getD k 0 / ws.sum ≤ 0 := div_nonpos_of_nonpos_of_nonneg hle (le_of_lt hs)
      linarith
    have hpk : probs.getD k 0 ≠ 0 := by
      intro hpk0
      have hwk0 : ws.getD k 0 = 0 := by
        rw [List.getD_eq_getElem _ _ hk]
        have hx : ws[k] = xrExp (xrDivPos (xrLog probs[k]) c) := by
          simp only [hwsdef, List.getElem_map]
        have hpkk : probs[k] = 0 := by
          rw [← List.getD_eq_getElem probs 0 hkpr]
          exact hpk0
        rw [hx, hpkk, xrLog, if_pos rfl]
        simp [xrDivPos, xrExp]
      linarith
    have hik : i = k := by
      rw [hsample] at hcontra
      omega
    rw [hik] at hzero
    exact hpk hzero
  · have hsum1 : (ws.map (fun w => w / ws.sum)).sum = 1 := by
      rw [sum_map_div, div_self (ne_of_gt hs)]
    rw [hsum1] at habs
    linarith

/-- Witness for C4 at `probs = [1, 0]`, `i = 1`, `temperature = 1`, `u = 0`. -/
theorem sample_never_selects_zero_prob_witness :
    ((∀ p ∈ [(1:ℝ), 0], 0 ≤ p) ∧ [(1:ℝ), 0].sum = 1 ∧ (0:ℝ) ≤ 0 ∧ (0:ℝ) < 1 ∧
        [(1:ℝ), 0].getD 1 0 = 0) ∧
      (sample [(1:ℝ), 0] 1 0 < 2 ∧ sample [(1:ℝ), 0] 1 0 ≠ 1) := by
  have hnn : ∀ p ∈ [(1:ℝ), 0], 0 ≤ p := by
    intro p hp
    rcases List.mem_cons.mp hp with rfl | hp
    · norm_num
    · rcases List.mem_cons.mp hp with rfl | hp
      · norm_num
      · simp at hp
  have h := sample_never_selects_zero_prob [(1:ℝ), 0] 1 0 1 hnn (by norm_num)
    le_rfl (by norm_num) (by norm_num)
  exact ⟨⟨hnn, by norm_num, le_rfl, by norm_num, by norm_num⟩,
    by simpa using h.1, h.2⟩

/-- C10 — for any two temperatures both `≤ 1e-6` (including zero and
negative values) the clamp `max(temperature, 1e-6)` erases the difference,
so `sample` returns the same index for the same `probs` and the same
uniform draw. -/
theorem sample_insensitive_below_floor (probs : List ℝ) (t1 t2 u : ℝ)
    (h1 : t1 ≤ 1 / 1000000) (h2 : t2 ≤ 1 / 1000000) :
    sample probs t1 u = sample probs t2 u := by
  rw [sample, sample, max_eq_right h1, max_eq_right h2]

/-- Witness for C10 at `probs = [1]`, `t1 = 0`, `t2 = -5`, `u = 0`. -/
theorem sample_insensitive_below_floor_witness :
    ((0:ℝ) ≤ 1 / 1000000 ∧ (-5:ℝ) ≤ 1 / 1000000) ∧
      sample [(1:ℝ)] 0 0 = sample [(1:ℝ)] (-5) 0 := by
  exact ⟨⟨by norm_num, by norm_num⟩,
    sample_insensitive_below_floor [(1:ℝ)] 0 (-5) 0 (by norm_num) (by norm_num)⟩

/-! ### The generator: `generateText` -/

/-- Capability of the external model object: input shape metadata
`[null, sampleLen, charSetSize]` and the `predict` operation.  `predict`
consumes the window of character indices that the source one-hot encodes
(the one-hot encoding of the first `sampleLen` window entries is a
bijective recoding, so `predict` is modelled directly on the index
window) and yields the squeezed probability row of length
`charSetSize`. -/
structure TFModel where
  sampleLen : ℕ
  charSetSize : ℕ
  predict : List ℕ → List ℝ

/-- Capability of the external `TextData` encoder: `textToIndices` maps a
single character to its index sequence (the source takes entry `[0]`),
and `getFromCharSet` maps an index back to a character. -/
structure TextData where
  textToIndices : Char → List ℕ
  getFromCharSet : ℕ → Char

/-- JavaScript array store: arrays are mutable heap cells addressed by
allocation order.  `sentenceIndices` is passed to `generateText` as a
reference into this store, so mutation of the caller's array is
expressible. -/
abbrev Heap : Type := List (List ℕ)

/-- Read the array behind a reference (a dangling reference reads `[]`;
every reference used by the embedding is valid). -/
def heapGet (h : Heap) (r : ℕ) : List ℕ := h.getD r []

/-- Overwrite the array behind a reference. -/
def heapSet (h : Heap) (r : ℕ) (a : List ℕ) : Heap := List.set h r a

/-- Allocate a fresh array, returning the new store and the fresh
reference. -/
def heapAlloc (h : Heap) (a : List ℕ) : Heap × ℕ := (h ++ [a], h.length)

/-- `x.slice()` — allocate a full copy (source line 42). -/
def sliceAll (h : Heap) (r : ℕ) : Heap × ℕ := heapAlloc h (heapGet h r)

/-- `x.slice(1)` — allocate a copy without the first entry (source
lines 48 and 74). -/
def sliceOne (h : Heap) (r : ℕ) : Heap × ℕ := heapAlloc h ((heapGet h r).drop 1)

/-- `x.push(v)` — in-place append (source lines 49 and 75). -/
def pushRef (h : Heap) (r : ℕ) (v : ℕ) : Heap := heapSet h r (heapGet h r ++ [v])

/-- Observable events of one `generateText` run, in program order:
`sep` — the separating space appended to `generated` (line 46);
`letter c` — an initial letter appended to `generated` (line 47);
`shiftEv before after` — the window mutation `slice(1)`/`push` pair,
recording the window contents before and after (lines 48–49 and 74–75);
`predictEv w` — `model.predict` invoked on the one-hot encoding of the
window `w` (lines 54–64);
`gen c` — the sampled winner character was determined (lines 67–68);
`cb c` — `await onTextGenerationChar(c)` ran to completion (lines 69–71);
`app c` — the winner character appended to `generated` (line 73). -/
inductive Ev where
  | sep : Ev
  | letter : Char → Ev
  | shiftEv : List ℕ → List ℕ → Ev
  | predictEv : List ℕ → Ev
  | gen : Char → Ev
  | cb : Char → Ev
  | app : Char → Ev
deriving DecidableEq

/-- JavaScript `/\s/.test(c)`: the character class `\s` of the regular
expression engine (whitespace, including NBSP, Unicode spaces and BOM). -/
def jsIsSpace (c : Char) : Bool :=
  decide (c.toNat = 32) || (decide (9 ≤ c.toNat) && decide (c.toNat ≤ 13)) ||
    decide (c.toNat = 160) || decide (c.toNat = 5760) ||
    (decide (8192 ≤ c.toNat) && decide (c.toNat ≤ 8202)) ||
    decide (c.toNat = 8232) || decide (c.toNat = 8233) ||
    decide (c.toNat = 8239) || decide (c.toNat = 8287) ||
    decide (c.toNat = 12288) || decide (c.toNat = 65279)

/-- Mutable locals of one `generateText` invocation: the array store,
the reference currently bound to the local `sentenceIndices`, the string
accumulator `generated` (as its character list), the event trace so far,
and the number of uniform values already consumed from the random
stream. -/
structure GState where
  heap : Heap
  ref : ℕ
  gend : List Char
  evs : List Ev
  rng : ℕ

/-- The window update of lines 48–49 / 74–75:
`sentenceIndices = sentenceIndices.slice(1); sentenceIndices.push(v)`,
recording the mutation as a `shiftEv` event. -/
def shiftWindow (st : GState) (v : ℕ) : GState :=
  let before := heapGet st.heap st.ref
  let p := sliceOne st.heap st.ref
  let h2 := pushRef p.1 p.2 v
  { st with
    heap := h2
    ref := p.2
    evs := st.evs ++ [Ev.shiftEv before (heapGet h2 p.2)] }

/-- The winner index of one iteration of the `do … while` body, from the
state at the top of the iteration: one-hot encode the first `sampleLen`
window entries, call `model.predict`, squeeze, and `sample` with the
next uniform value (lines 54–67). -/
noncomputable def winnerIndexOf (m : TFModel) (temperature : ℝ) (us : ℕ → ℝ)
    (st : GState) : ℕ :=
  sample (m.predict ((heapGet st.heap st.ref).take m.sampleLen)) temperature (us st.rng)

/-- The winner character of one iteration:
`textData.getFromCharSet(winnerIndex)` (line 68). -/
noncomputable def winnerCharOf (m : TFModel) (td : TextData) (temperature : ℝ)
    (us : ℕ → ℝ) (st : GState) : Char :=
  td.getFromCharSet (winnerIndexOf m temperature us st)

/-- One full iteration of the `do … while` body (lines 53–78): predict,
sample, decode, `await` the optional callback, append the winner
character to `generated`, and shift the window by the winner index. -/
noncomputable def innerStep (m : TFModel) (td : TextData) (temperature : ℝ)
    (us : ℕ → ℝ) (hasCb : Bool) (st : GState) : GState :=
  let winnerChar := winnerCharOf m td temperature us st
  let st1 : GState :=
    { st with
      evs := st.evs ++ [Ev.predictEv (heapGet st.heap st.ref), Ev.gen winnerChar] ++
        (if hasCb then [Ev.cb winnerChar] else []) ++ [Ev.app winnerChar]
      gend := st.gend ++ [winnerChar]
      rng := st.rng + 1 }
  shiftWindow st1 (winnerIndexOf m temperature us st)

/-- The `do … while` loop of lines 52–81, one unit of fuel per iteration
(`none` = the loop has not terminated within `fuel` iterations): run the
body, repeat unless the winner character matches `/\s/` (line 81). -/
noncomputable def innerLoop (m : TFModel) (td : TextData) (temperature : ℝ)
    (us : ℕ → ℝ) (hasCb : Bool) : ℕ → GState → Option GState
  | 0, _ => none
  | fuel + 1, st =>
    if jsIsSpace (winnerCharOf m td temperature us st) then
      some (innerStep m td temperature us hasCb st)
    else innerLoop m td temperature us hasCb fuel (innerStep m td temperature us hasCb st)

/-- The `for` loop of lines 45–81 over the initial letters, with the
running loop index `i`: if `i > 0` append the separating space, append
the letter, shift the letter's index into the window, then run the inner
sampling loop. -/
noncomputable def outerLoop (m : TFModel) (td : TextData) (temperature : ℝ)
    (us : ℕ → ℝ) (hasCb : Bool) (fuel : ℕ) :
    List Char → ℕ → GState → Option GState
  | [], _, st => some st
  | c :: rest, i, st =>
    let st1 : GState :=
      { st with
        gend := st.gend ++ (if 0 < i then [' '] else []) ++ [c]
        evs := st.evs ++ (if 0 < i then [Ev.sep] else []) ++ [Ev.letter c] }
    let st2 := shiftWindow st1 ((td.textToIndices c).getD 0 0)
    match innerLoop m td temperature us hasCb fuel st2 with
    | none => none
    | some st3 => outerLoop m td temperature us hasCb fuel rest (i + 1) st3

/-- Embedding of the source's `generateText` (lines 35–84).  The caller's
array lives in `h0` behind `seedRef`; line 42 takes the defensive copy
(`sentenceIndices = sentenceIndices.slice()`), then the letter loop
runs.  The result is the final `generated` string (as characters), the
event trace and the final array store; `none` means the stochastic
generation loop did not terminate within `fuel` iterations per word. -/
noncomputable def generateText (m : TFModel) (td : TextData) (h0 : Heap)
    (seedRef : ℕ) (initialLetters : List Char) (temperature : ℝ)
    (hasCb : Bool) (us : ℕ → ℝ) (fuel : ℕ) : Option (List Char × List Ev × Heap) :=
  let p := sliceAll h0 seedRef
  (outerLoop m td temperature us hasCb fuel initialLetters 0
      ⟨p.1, p.2, [], [], 0⟩).map fun st => (st.gend, st.evs, st.heap)

/-- Extract the winner character from a `gen` event. -/
def genEx : Ev → Option Char :=
  fun e =>
    match e with
    | Ev.gen c => some c
    | _ => none

/-- Extract the appended character from an `app` event. -/
def appEx : Ev → Option Char :=
  fun e =>
    match e with
    | Ev.app c => some c
    | _ => none

/-- The winner characters recorded in a trace, in generation order. -/
def gens (evs : List Ev) : List Char := evs.filterMap genEx

/-- The characters appended to `generated` by the inner loop,
in order. -/
def apps (evs : List Ev) : List Char := evs.filterMap appEx

/-- Keep only `gen` and `cb` events of a trace. -/
def keepGenCb : Ev → Option Ev :=
  fun e =>
    match e with
    | Ev.gen c => some (Ev.gen c)
    | Ev.cb c => some (Ev.cb c)
    | _ => none

/-- Keep only `cb` and `app` events of a trace. -/
def keepCbApp : Ev → Option Ev :=
  fun e =>
    match e with
    | Ev.cb c => some (Ev.cb c)
    | Ev.app c => some (Ev.app c)
    | _ => none

/-- Keep only `sep` events of a trace. -/
def keepSep : Ev → Option Ev :=
  fun e =>
    match e with
    | Ev.sep => some Ev.sep
    | _ => none

/-- Modelled from the spec's words (C3): "invokes `onChar(winnerChar)`
after `winnerChar` is appended to the output string but before
proceeding to the next inner-loop iteration" — i.e. restricted to
callback and append events, the trace consists of `[app c, cb c]`
blocks, the append preceding the callback for each character. -/
def onCharAfterAppend (evs : List Ev) : Prop :=
  evs.filterMap keepCbApp = (apps evs).flatMap fun c => [Ev.app c, Ev.cb c]

/-! ### Heap lemmas -/

theorem heapGet_append_lt (h : Heap) (a : List ℕ) (r : ℕ) (hr : r < h.length) :
    heapGet (h ++ [a]) r = heapGet h r := by
  rw [heapGet, heapGet, List.getD_append _ _ _ _ hr]

theorem heapGet_append_self (h : Heap) (a : List ℕ) :
    heapGet (h ++ [a]) h.length = a := by
  rw [heapGet, List.getD_eq_getElem?_getD, List.getElem?_concat_length]
  rfl

theorem heapGet_set_ne (h : Heap) (i : ℕ) (a : List ℕ) (r : ℕ) (hne : i ≠ r) :
    heapGet (heapSet h i a) r = heapGet h r := by
  rw [heapGet, heapSet, heapGet, List.getD_eq_getElem?_getD,
    List.getElem?_set_ne hne, ← List.getD_eq_getElem?_getD]

theorem heapGet_set_self (h : Heap) (i : ℕ) (a : List ℕ) (hi : i < h.length) :
    heapGet (heapSet h i a) i = a := by
  rw [heapGet, heapSet, List.getD_eq_getElem?_getD, List.getElem?_set_self]
  · rfl
  · exact hi

theorem heapSet_length (h : Heap) (i : ℕ) (a : List ℕ) :
    (heapSet h i a).length = h.length := by
  rw [heapSet]
  simp

/-! ### `shiftWindow` lemmas -/

theorem shiftWindow_heap_length (st : GState) (v : ℕ) :
    (shiftWindow st v).heap.length = st.heap.length + 1 := by
  rw [shiftWindow]
  simp only [pushRef, sliceOne, heapAlloc, heapSet_length]
  simp

theorem shiftWindow_frame (st : GState) (v : ℕ) (r : ℕ) (hr : r < st.heap.length) :
    heapGet (shiftWindow st v).heap r = heapGet st.heap r := by
  rw [shiftWindow]
  simp only [pushRef, sliceOne, heapAlloc]
  rw [heapGet_set_ne _ _ _ _ (by omega), heapGet_append_lt _ _ _ hr]

theorem shiftWindow_window (st : GState) (v : ℕ) :
    heapGet (shiftWindow st v).heap (shiftWindow st v).ref
      = (heapGet st.heap st.ref).drop 1 ++ [v] := by
  rw [shiftWindow]
  simp only [pushRef, sliceOne, heapAlloc]
  rw [heapGet_set_self _ _ _ (by simp), heapGet_append_self]

theorem shiftWindow_evs (st : GState) (v : ℕ) :
    (shiftWindow st v).evs
      = st.evs ++ [Ev.shiftEv (heapGet st.heap st.ref)
          ((heapGet st.heap st.ref).drop 1 ++ [v])] := by
  rw [shiftWindow]
  simp only [pushRef, sliceOne, heapAlloc]
  rw [heapGet_set_self _ _ _ (by simp), heapGet_append_self]

theorem shiftWindow_gend (st : GState) (v : ℕ) :
    (shiftWindow st v).gend = st.gend := rfl

theorem shiftWindow_rng (st : GState) (v : ℕ) :
    (shiftWindow st v).rng = st.rng := rfl

/-! ### C7 — empty `initialLetters` -/

/-- C7 — for `initialLetters = []` the letter loop never runs:
`generateText` returns the empty string, the event trace is empty (in
particular `model.predict` is never invoked), and the only heap effect
is the defensive copy of line 42. -/
theorem generateText_empty_initialLetters (m : TFModel) (td : TextData)
    (h0 : Heap) (seedRef : ℕ) (temperature : ℝ) (hasCb : Bool)
    (us : ℕ → ℝ) (fuel : ℕ) :
    generateText m td h0 seedRef [] temperature hasCb us fuel
        = some ([], [], h0 ++ [heapGet h0 seedRef]) ∧
      ∀ out evs h', generateText m td h0 seedRef [] temperature hasCb us fuel
          = some (out, evs, h') → out = [] ∧ ∀ w, Ev.predictEv w ∉ evs := by
  constructor
  · rfl
  · intro out evs h' hsome
    have : some (([] : List Char), ([] : List Ev), h0 ++ [heapGet h0 seedRef])
        = some (out, evs, h') := by
      rw [← hsome]
      rfl
    obtain ⟨h1, h2, _⟩ : ([] : List Char) = out ∧ ([] : List Ev) = evs ∧
        h0 ++ [heapGet h0 seedRef] = h' := by
      have := Option.some.inj this
      exact ⟨congrArg Prod.fst this, congrArg (fun x => x.2.1) this,
        congrArg (fun x => x.2.2) this⟩
    refine ⟨h1.symm, ?_⟩
    intro w
    rw [← h2]
    simp

/-! ### C6 — the caller's array is never mutated -/

theorem innerStep_heap_length (m : TFModel) (td : TextData) (temperature : ℝ)
    (us : ℕ → ℝ) (hasCb : Bool) (st : GState) :
    (innerStep m td temperature us hasCb st).heap.length = st.heap.length + 1 := by
  rw [innerStep, shiftWindow_heap_length]

theorem innerStep_frame (m : TFModel) (td : TextData) (temperature : ℝ)
    (us : ℕ → ℝ) (hasCb : Bool) (st : GState) (r : ℕ) (hr : r < st.heap.length) :
    heapGet (innerStep m td temperature us hasCb st).heap r = heapGet st.heap r := by
  rw [innerStep]
  exact shiftWindow_frame _ _ r hr

theorem innerLoop_frame (m : TFModel) (td : TextData) (temperature : ℝ)
    (us : ℕ → ℝ) (hasCb : Bool) (fuel : ℕ) (st st' : GState)
    (h : innerLoop m td temperature us hasCb fuel st = some st') :
    st.heap.length ≤ st'.heap.length ∧
      ∀ r, r < st.heap.length → heapGet st'.heap r = heapGet st.heap r := by
  induction fuel generalizing st with
  | zero => simp [innerLoop] at h
  | succ fuel ih =>
    rw [innerLoop] at h
    by_cases hsp : jsIsSpace (winnerCharOf m td temperature us st)
    · rw [if_pos hsp] at h
      have hst' : st' = innerStep m td temperature us hasCb st :=
        (Option.some.inj h).symm
      rw [hst', innerStep_heap_length]
      exact ⟨by omega, fun r hr => innerStep_frame m td temperature us hasCb st r hr⟩
    · rw [if_neg hsp] at h
      obtain ⟨hle, hfr⟩ := ih _ h
      rw [innerStep_heap_length] at hle
      refine ⟨by omega, fun r hr => ?_⟩
      rw [hfr r (by rw [innerStep_heap_length]; omega),
        innerStep_frame m td temperature us hasCb st r hr]

theorem outerLoop_frame (m : TFModel) (td : TextData) (temperature : ℝ)
    (us : ℕ → ℝ) (hasCb : Bool) (fuel : ℕ) (letters : List Char) (i : ℕ)
    (st st' : GState)
    (h : outerLoop m td temperature us hasCb fuel letters i st = some st') :
    st.heap.length ≤ st'.heap.length ∧
      ∀ r, r < st.heap.length → heapGet st'.heap r = heapGet st.heap r := by
  induction letters generalizing i st with
  | nil =>
    rw [outerLoop] at h
    rw [(Option.some.inj h).symm]
    exact ⟨le_rfl, fun _ _ => rfl⟩
  | cons c rest ih =>
    rw [outerLoop] at h
    set st1 : GState :=
      { st with
        gend := st.gend ++ (if 0 < i then [' '] else []) ++ [c]
        evs := st.evs ++ (if 0 < i then [Ev.sep] else []) ++ [Ev.letter c] } with hst1
    set st2 := shiftWindow st1 ((td.textToIndices c).getD 0 0) with hst2
    cases hinner : innerLoop m td temperature us hasCb fuel st2 with
    | none => rw [hinner] at h; exact absurd h (by simp)
    | some st3 =>
      rw [hinner] at h
      obtain ⟨hle3, hfr3⟩ := innerLoop_frame m td temperature us hasCb fuel st2 st3 hinner
      obtain ⟨hle', hfr'⟩ := ih (i + 1) st3 h
      have hlen2 : st2.heap.length = st.heap.length + 1 := by
        rw [hst2, shiftWindow_heap_length]
      refine ⟨by omega, fun r hr => ?_⟩
      rw [hfr' r (by omega), hfr3 r (by omega), hst2,
        shiftWindow_frame _ _ _ (by exact hr)]

/-- C6 — `generateText` never mutates the caller's `sentenceIndices`
array: line 42 takes a defensive copy, and every subsequent `slice(1)`
rebinds the local to a fresh array while `push` mutates only arrays
allocated during the call.  After any completed run, the caller's array
holds its original contents (hence also its original length). -/
theorem generateText_preserves_caller_seed (m : TFModel) (td : TextData)
    (h0 : Heap) (seedRef : ℕ) (letters : List Char) (temperature : ℝ)
    (hasCb : Bool) (us : ℕ → ℝ) (fuel : ℕ) (hr : seedRef < h0.length) :
    ∀ out evs h', generateText m td h0 seedRef letters temperature hasCb us fuel
        = some (out, evs, h') → heapGet h' seedRef = heapGet h0 seedRef := by
  intro out evs h' hsome
  rw [generateText] at hsome
  cases houter : outerLoop m td temperature us hasCb fuel letters 0
      ⟨(sliceAll h0 seedRef).1, (sliceAll h0 seedRef).2, [], [], 0⟩ with
  | none => rw [houter] at hsome; exact absurd hsome (by simp)
  | some st3 =>
    rw [houter] at hsome
    obtain ⟨_, hfr⟩ := outerLoop_frame m td temperature us hasCb fuel letters 0 _ st3 houter
    have hh' : h' = st3.heap := by
      have := Option.some.inj hsome
      exact (congrArg (fun x => x.2.2) this).symm
    have hbase : heapGet (sliceAll h0 seedRef).1 seedRef = heapGet h0 seedRef := by
      rw [sliceAll, heapAlloc]
      exact heapGet_append_lt h0 _ seedRef hr
    have hlen : seedRef < (sliceAll h0 seedRef).1.length := by
      rw [sliceAll, heapAlloc]
      simp only [List.length_append, List.length_cons, List.length_nil]
      omega
    rw [hh', hfr seedRef hlen, hbase]

/-- Witness for C6: a trivial completed run (`initialLetters = []`) over
the one-array store `[[5]]`. -/
theorem generateText_preserves_caller_seed_witness :
    (0 < ([[5]] : Heap).length) ∧ heapGet [[5], [5]] 0 = heapGet [[5]] 0 := by
  refine ⟨by norm_num, ?_⟩
  exact generateText_preserves_caller_seed
    ⟨1, 1, fun _ => [1]⟩ ⟨fun _ => [0], fun _ => 'a'⟩ [[5]] 0 [] 1 false
    (fun _ => 0) 0 (by norm_num) [] [] [[5], [5]] rfl

/-! ### Structure of one inner iteration -/

theorem innerStep_gend (m : TFModel) (td : TextData) (temperature : ℝ)
    (us : ℕ → ℝ) (hasCb : Bool) (st : GState) :
    (innerStep m td temperature us hasCb st).gend
      = st.gend ++ [winnerCharOf m td temperature us st] := rfl

theorem innerStep_rng (m : TFModel) (td : TextData) (temperature : ℝ)
    (us : ℕ → ℝ) (hasCb : Bool) (st : GState) :
    (innerStep m td temperature us hasCb st).rng = st.rng + 1 := rfl

theorem innerStep_window (m : TFModel) (td : TextData) (temperature : ℝ)
    (us : ℕ → ℝ) (hasCb : Bool) (st : GState) :
    heapGet (innerStep m td temperature us hasCb st).heap
        (innerStep m td temperature us hasCb st).ref
      = (heapGet st.heap st.ref).drop 1 ++ [winnerIndexOf m temperature us st] := by
  rw [innerStep]
  exact shiftWindow_window _ _

theorem innerStep_evs (m : TFModel) (td : TextData) (temperature : ℝ)
    (us : ℕ → ℝ) (hasCb : Bool) (st : GState) :
    (innerStep m td temperature us hasCb st).evs
      = st.evs ++ [Ev.predictEv (heapGet st.heap st.ref),
          Ev.gen (winnerCharOf m td temperature us st)] ++
        (if hasCb then [Ev.cb (winnerCharOf m td temperature us st)] else []) ++
        [Ev.app (winnerCharOf m td temperature us st)] ++
        [Ev.shiftEv (heapGet st.heap st.ref)
          ((heapGet st.heap st.ref).drop 1 ++ [winnerIndexOf m temperature us st])] := by
  rw [innerStep]
  exact shiftWindow_evs _ _

/-- Structure of a terminating run of the inner loop: some non-empty
character list `ws` (the winner characters, in order) is appended to
`generated`, and — under any event projection that discards the window
bookkeeping (`shiftEv`, `predictEv`) — the trace grows by exactly one
`gen`/optional-`cb`/`app` block per winner character. -/
theorem innerLoop_proj (m : TFModel) (td : TextData) (temperature : ℝ)
    (us : ℕ → ℝ) (hasCb : Bool) (fuel : ℕ) (st st' : GState)
    (h : innerLoop m td temperature us hasCb fuel st = some st') :
    ∃ ws : List Char, ws ≠ [] ∧ st'.gend = st.gend ++ ws ∧
      ∀ (β : Type) (f : Ev → Option β),
        (∀ b a, f (Ev.shiftEv b a) = none) →
        (∀ w, f (Ev.predictEv w) = none) →
        st'.evs.filterMap f = st.evs.filterMap f ++
          ws.flatMap (fun c =>
            ([Ev.gen c] ++ (if hasCb then [Ev.cb c] else []) ++ [Ev.app c]).filterMap f) := by
  induction fuel generalizing st with
  | zero => simp [innerLoop] at h
  | succ fuel ih =>
    rw [innerLoop] at h
    by_cases hsp : jsIsSpace (winnerCharOf m td temperature us st)
    · rw [if_pos hsp] at h
      have hst' : st' = innerStep m td temperature us hasCb st := (Option.some.inj h).symm
      refine ⟨[winnerCharOf m td temperature us st], by simp, ?_, ?_⟩
      · rw [hst', innerStep_gend]
      · intro β f hf1 hf2
        rw [hst', innerStep_evs]
        simp only [List.filterMap_append, List.flatMap_cons, List.flatMap_nil,
          List.filterMap_cons, hf1, hf2, List.filterMap_nil, List.append_nil,
          List.append_assoc]
    · rw [if_neg hsp] at h
      obtain ⟨ws', hne', hg', hf'⟩ := ih (innerStep m td temperature us hasCb st) h
      refine ⟨winnerCharOf m td temperature us st :: ws', by simp, ?_, ?_⟩
      · rw [hg', innerStep_gend, List.append_assoc]
        rfl
      · intro β f hf1 hf2
        rw [hf' β f hf1 hf2, innerStep_evs]
        simp only [List.filterMap_append, List.flatMap_cons,
          List.filterMap_cons, hf1, hf2, List.filterMap_nil, List.append_nil,
          List.append_assoc]

/-- Structure of a terminating run of the letter loop, under any event
projection that additionally discards the per-letter events
(`sep`, `letter`): the trace grows by the concatenated winner blocks of
all words. -/
theorem outerLoop_proj (m : TFModel) (td : TextData) (temperature : ℝ)
    (us : ℕ → ℝ) (hasCb : Bool) (fuel : ℕ) (letters : List Char) (i : ℕ)
    (st st' : GState)
    (h : outerLoop m td temperature us hasCb fuel letters i st = some st') :
    ∃ ws : List Char,
      ∀ (β : Type) (f : Ev → Option β),
        (∀ b a, f (Ev.shiftEv b a) = none) →
        (∀ w, f (Ev.predictEv w) = none) →
        f Ev.sep = none →
        (∀ c, f (Ev.letter c) = none) →
        st'.evs.filterMap f = st.evs.filterMap f ++
          ws.flatMap (fun c =>
            ([Ev.gen c] ++ (if hasCb then [Ev.cb c] else []) ++ [Ev.app c]).filterMap f) := by
  induction letters generalizing i st with
  | nil =>
    rw [outerLoop] at h
    rw [(Option.some.inj h).symm]
    exact ⟨[], fun β f _ _ _ _ => by simp⟩
  | cons c rest ih =>
    rw [outerLoop] at h
    set st1 : GState :=
      { st with
        gend := st.gend ++ (if 0 < i then [' '] else []) ++ [c]
        evs := st.evs ++ (if 0 < i then [Ev.sep] else []) ++ [Ev.letter c] } with hst1
    set st2 := shiftWindow st1 ((td.textToIndices c).getD 0 0) with hst2
    cases hinner : innerLoop m td temperature us hasCb fuel st2 with
    | none => rw [hinner] at h; exact absurd h (by simp)
    | some st3 =>
      rw [hinner] at h
      obtain ⟨ws0, _, _, hf0⟩ := innerLoop_proj m td temperature us hasCb fuel st2 st3 hinner
      obtain ⟨ws1, hf1⟩ := ih (i + 1) st3 h
      refine ⟨ws0 ++ ws1, fun β f k1 k2 k3 k4 => ?_⟩
      have hite : (if 0 < i then [Ev.sep] else []).filterMap f = [] := by
        by_cases hi : 0 < i
        · rw [if_pos hi]
          simp [k3]
        · rw [if_neg hi]
          rfl
      have hst2evs : st2.evs.filterMap f = st.evs.filterMap f := by
        rw [hst2, shiftWindow_evs, hst1]
        simp only [List.filterMap_append, hite, k1, k4, List.filterMap_cons,
          List.filterMap_nil, List.append_nil]
      rw [hf1 β f k1 k2 k3 k4, hf0 β f k1 k2, hst2evs, List.flatMap_append,
        List.append_assoc]

/-- Structure of a completed `generateText` run: a single character list
`ws` (all winner characters across all words, in generation order)
determines every projection of the trace that discards window
bookkeeping and per-letter events. -/
theorem generateText_proj (m : TFModel) (td : TextData) (h0 : Heap)
    (seedRef : ℕ) (letters : List Char) (temperature : ℝ) (hasCb : Bool)
    (us : ℕ → ℝ) (fuel : ℕ) (out : List Char) (evs : List Ev) (h' : Heap)
    (h : generateText m td h0 seedRef letters temperature hasCb us fuel
        = some (out, evs, h')) :
    ∃ ws : List Char,
      ∀ (β : Type) (f : Ev → Option β),
        (∀ b a, f (Ev.shiftEv b a) = none) →
        (∀ w, f (Ev.predictEv w) = none) →
        f Ev.sep = none →
        (∀ c, f (Ev.letter c) = none) →
        evs.filterMap f = ws.flatMap (fun c =>
          ([Ev.gen c] ++ (if hasCb then [Ev.cb c] else []) ++ [Ev.app c]).filterMap f) := by
  rw [generateText] at h
  cases houter : outerLoop m td temperature us hasCb fuel letters 0
      ⟨(sliceAll h0 seedRef).1, (sliceAll h0 seedRef).2, [], [], 0⟩ with
  | none => rw [houter] at h; exact absurd h (by simp)
  | some st3 =>
    rw [houter] at h
    have hevs : evs = st3.evs := by
      have := Option.some.inj h
      exact (congrArg (fun x => x.2.1) this).symm
    obtain ⟨ws, hf⟩ := outerLoop_proj m td temperature us hasCb fuel letters 0 _ st3 houter
    refine ⟨ws, fun β f k1 k2 k3 k4 => ?_⟩
    rw [hevs, hf β f k1 k2 k3 k4]
    rfl

/-- C9 — when `onChar` is provided (`hasCb = true`), the callback runs
exactly once per generated character, in strict generation order, and
each invocation completes before the next character is generated:
restricted to `gen`/`cb` events, the trace of any completed run is the
block sequence `[gen c₁, cb c₁, gen c₂, cb c₂, …]` over exactly the
winner characters, so every `cb` lies between its own `gen` and the next
one. -/
theorem generateText_onChar_once_per_char (m : TFModel) (td : TextData)
    (h0 : Heap) (seedRef : ℕ) (letters : List Char) (temperature : ℝ)
    (us : ℕ → ℝ) (fuel : ℕ) (out : List Char) (evs : List Ev) (h' : Heap)
    (h : generateText m td h0 seedRef letters temperature true us fuel
        = some (out, evs, h')) :
    evs.filterMap keepGenCb = (gens evs).flatMap fun c => [Ev.gen c, Ev.cb c] := by
  obtain ⟨ws, hf⟩ := generateText_proj m td h0 seedRef letters temperature true us fuel
    out evs h' h
  have hg : gens evs = ws := by
    rw [gens, hf Char genEx (fun b a => rfl) (fun w => rfl) rfl (fun c => rfl)]
    simp [genEx]
  rw [hg, hf Ev keepGenCb (fun b a => rfl) (fun w => rfl) rfl (fun c => rfl)]
  simp [keepGenCb]

/-- C3 (amended) — when `onChar` is provided, `generateText` awaits
`onChar(winnerChar)` after the winner character is determined but
*before* appending it to the output (source lines 68–73 run decode,
`await onChar`, then `generated += winnerChar`), and before the next
iteration: restricted to `cb`/`app` events, the trace of any completed
run is the block sequence `[cb c, app c]` per winner character, the
callback preceding the append. -/
theorem generateText_onChar_before_append (m : TFModel) (td : TextData)
    (h0 : Heap) (seedRef : ℕ) (letters : List Char) (temperature : ℝ)
    (us : ℕ → ℝ) (fuel : ℕ) (out : List Char) (evs : List Ev) (h' : Heap)
    (h : generateText m td h0 seedRef letters temperature true us fuel
        = some (out, evs, h')) :
    evs.filterMap keepCbApp = (gens evs).flatMap fun c => [Ev.cb c, Ev.app c] := by
  obtain ⟨ws, hf⟩ := generateText_proj m td h0 seedRef letters temperature true us fuel
    out evs h' h
  have hg : gens evs = ws := by
    rw [gens, hf Char genEx (fun b a => rfl) (fun w => rfl) rfl (fun c => rfl)]
    simp [genEx]
  rw [hg, hf Ev keepCbApp (fun b a => rfl) (fun w => rfl) rfl (fun c => rfl)]
  simp [keepCbApp]

/-! ### C8 — every window mutation is a constant-length shift -/

/-- A trace event respects the window invariant for window length `n`:
if it is a mutation record, the mutation dropped the oldest index and
appended one new index, the pre-state had length `n`, and the length was
preserved. -/
def GoodShift (n : ℕ) (e : Ev) : Prop :=
  ∀ b a, e = Ev.shiftEv b a →
    (∃ v, a = b.drop 1 ++ [v]) ∧ b.length = n ∧ a.length = b.length

theorem goodShift_not_shift (n : ℕ) (e : Ev) (h : ∀ b a, e ≠ Ev.shiftEv b a) :
    GoodShift n e :=
  fun b a hba => absurd hba (h b a)

theorem goodShift_shift (n : ℕ) (w : List ℕ) (v : ℕ) (hw : w.length = n) (hn : 0 < n) :
    GoodShift n (Ev.shiftEv w (w.drop 1 ++ [v])) := by
  intro b a hba
  obtain ⟨rfl, rfl⟩ : w = b ∧ w.drop 1 ++ [v] = a := by
    cases hba
    exact ⟨rfl, rfl⟩
  refine ⟨⟨v, rfl⟩, hw, ?_⟩
  simp only [List.length_append, List.length_drop, List.length_cons, List.length_nil]
  omega

theorem innerStep_window_length (m : TFModel) (td : TextData) (temperature : ℝ)
    (us : ℕ → ℝ) (hasCb : Bool) (st : GState) (n : ℕ) (hn : 0 < n)
    (hw : (heapGet st.heap st.ref).length = n) :
    (heapGet (innerStep m td temperature us hasCb st).heap
      (innerStep m td temperature us hasCb st).ref).length = n := by
  rw [innerStep_window]
  simp only [List.length_append, List.length_drop, List.length_cons, List.length_nil]
  omega

theorem innerStep_goodShift (m : TFModel) (td : TextData) (temperature : ℝ)
    (us : ℕ → ℝ) (hasCb : Bool) (st : GState) (n : ℕ) (hn : 0 < n)
    (hw : (heapGet st.heap st.ref).length = n) :
    ∀ e ∈ (innerStep m td temperature us hasCb st).evs,
      e ∈ st.evs ∨ GoodShift n e := by
  intro e he
  rw [innerStep_evs] at he
  cases hasCb with
  | false =>
    simp only [Bool.false_eq_true, if_false, List.append_nil, List.mem_append,
      List.mem_cons, List.not_mem_nil, or_false, or_assoc] at he
    rcases he with hmem | rfl | rfl | rfl | rfl
    · exact Or.inl hmem
    · exact Or.inr (goodShift_not_shift n _ (fun b a hba => Ev.noConfusion hba))
    · exact Or.inr (goodShift_not_shift n _ (fun b a hba => Ev.noConfusion hba))
    · exact Or.inr (goodShift_not_shift n _ (fun b a hba => Ev.noConfusion hba))
    · exact Or.inr (goodShift_shift n _ _ hw hn)
  | true =>
    simp only [if_true, List.mem_append, List.mem_cons, List.not_mem_nil,
      or_false, or_assoc] at he
    rcases he with hmem | rfl | rfl | rfl | rfl | rfl
    · exact Or.inl hmem
    · exact Or.inr (goodShift_not_shift n _ (fun b a hba => Ev.noConfusion hba))
    · exact Or.inr (goodShift_not_shift n _ (fun b a hba => Ev.noConfusion hba))
    · exact Or.inr (goodShift_not_shift n _ (fun b a hba => Ev.noConfusion hba))
    · exact Or.inr (goodShift_not_shift n _ (fun b a hba => Ev.noConfusion hba))
    · exact Or.inr (goodShift_shift n _ _ hw hn)

theorem innerLoop_shifts (m : TFModel) (td : TextData) (temperature : ℝ)
    (us : ℕ → ℝ) (hasCb : Bool) (fuel : ℕ) (st st' : GState) (n : ℕ) (hn : 0 < n)
    (h : innerLoop m td temperature us hasCb fuel st = some st')
    (hw : (heapGet st.heap st.ref).length = n) :
    (heapGet st'.heap st'.ref).length = n ∧
      ∀ e ∈ st'.evs, e ∈ st.evs ∨ GoodShift n e := by
  induction fuel generalizing st with
  | zero => simp [innerLoop] at h
  | succ fuel ih =>
    rw [innerLoop] at h
    have hw2 := innerStep_window_length m td temperature us hasCb st n hn hw
    have hadd := innerStep_goodShift m td temperature us hasCb st n hn hw
    by_cases hsp : jsIsSpace (winnerCharOf m td temperature us st)
    · rw [if_pos hsp] at h
      rw [(Option.some.inj h).symm]
      exact ⟨hw2, hadd⟩
    · rw [if_neg hsp] at h
      obtain ⟨hw', hev'⟩ := ih (innerStep m td temperature us hasCb st) h hw2
      refine ⟨hw', fun e he => ?_⟩
      rcases hev' e he with hmem | hgood
      · exact hadd e hmem
      · exact Or.inr hgood

theorem outerLoop_shifts (m : TFModel) (td : TextData) (temperature : ℝ)
    (us : ℕ → ℝ) (hasCb : Bool) (fuel : ℕ) (letters : List Char) (i : ℕ)
    (st st' : GState) (n : ℕ) (hn : 0 < n)
    (h : outerLoop m td temperature us hasCb fuel letters i st = some st')
    (hw : (heapGet st.heap st.ref).length = n) :
    (heapGet st'.heap st'.ref).length = n ∧
      ∀ e ∈ st'.evs, e ∈ st.evs ∨ GoodShift n e := by
  induction letters generalizing i st with
  | nil =>
    rw [outerLoop] at h
    rw [(Option.some.inj h).symm]
    exact ⟨hw, fun e he => Or.inl he⟩
  | cons c rest ih =>
    rw [outerLoop] at h
    set st1 : GState :=
      { st with
        gend := st.gend ++ (if 0 < i then [' '] else []) ++ [c]
        evs := st.evs ++ (if 0 < i then [Ev.sep] else []) ++ [Ev.letter c] } with hst1
    set st2 := shiftWindow st1 ((td.textToIndices c).getD 0 0) with hst2
    cases hinner : innerLoop m td temperature us hasCb fuel st2 with
    | none => rw [hinner] at h; exact absurd h (by simp)
    | some st3 =>
      rw [hinner] at h
      have hw2 : (heapGet st2.heap st2.ref).length = n := by
        rw [hst2, shiftWindow_window]
        simp only [List.length_append, List.length_drop, List.length_cons,
          List.length_nil]
        have : (heapGet st1.heap st1.ref).length = n := hw
        omega
      have hadd2 : ∀ e ∈ st2.evs, e ∈ st.evs ∨ GoodShift n e := by
        intro e he
        rw [hst2, shiftWindow_evs, hst1] at he
        by_cases hi : 0 < i
        · simp only [if_pos hi, List.mem_append, List.mem_cons, List.not_mem_nil,
            or_false, or_assoc] at he
          rcases he with hmem | rfl | rfl | rfl
          · exact Or.inl hmem
          · exact Or.inr (goodShift_not_shift n _ (fun b a hba => Ev.noConfusion hba))
          · exact Or.inr (goodShift_not_shift n _ (fun b a hba => Ev.noConfusion hba))
          · exact Or.inr (goodShift_shift n _ _ hw hn)
        · simp only [if_neg hi, List.append_nil, List.mem_append, List.mem_cons,
            List.not_mem_nil, or_false, or_assoc] at he
          rcases he with hmem | rfl | rfl
          · exact Or.inl hmem
          · exact Or.inr (goodShift_not_shift n _ (fun b a hba => Ev.noConfusion hba))
          · exact Or.inr (goodShift_shift n _ _ hw hn)
      obtain ⟨hwin, hev⟩ := innerLoop_shifts m td temperature us hasCb fuel st2 st3 n hn
        hinner hw2
      obtain ⟨hwin', hev'⟩ := ih (i + 1) st3 h hwin
      refine ⟨hwin', fun e he => ?_⟩
      rcases hev' e he with hmem3 | hgood
      · rcases hev e hmem3 with hmem2 | hgood
        · exact hadd2 e hmem2
        · exact Or.inr hgood
      · exact Or.inr hgood

/-- C8 — every mutation of the character window during a `generateText`
run is exactly "drop the oldest index, append the newest index", and the
window's length is constant (equal to `sampleLen`) across all mutations:
every mutation record in the trace of a completed run shows a pre-state
of length `sampleLen`, a drop-and-append shape, and an unchanged
length. -/
theorem generateText_window_invariant (m : TFModel) (td : TextData)
    (h0 : Heap) (seedRef : ℕ) (letters : List Char) (temperature : ℝ)
    (hasCb : Bool) (us : ℕ → ℝ) (fuel : ℕ)
    (hlen : (heapGet h0 seedRef).length = m.sampleLen) (hpos : 0 < m.sampleLen) :
    ∀ out evs h', generateText m td h0 seedRef letters temperature hasCb us fuel
        = some (out, evs, h') →
      ∀ e ∈ evs, GoodShift m.sampleLen e := by
  intro out evs h' hsome
  rw [generateText] at hsome
  cases houter : outerLoop m td temperature us hasCb fuel letters 0
      ⟨(sliceAll h0 seedRef).1, (sliceAll h0 seedRef).2, [], [], 0⟩ with
  | none => rw [houter] at hsome; exact absurd hsome (by simp)
  | some st3 =>
    rw [houter] at hsome
    have hevs : evs = st3.evs := by
      have := Option.some.inj hsome
      exact (congrArg (fun x => x.2.1) this).symm
    have hw0 : (heapGet (sliceAll h0 seedRef).1 (sliceAll h0 seedRef).2).length
        = m.sampleLen := by
      rw [sliceAll, heapAlloc, heapGet_append_self]
      exact hlen
    obtain ⟨_, hev⟩ := outerLoop_shifts m td temperature us hasCb fuel letters 0 _ st3
      m.sampleLen hpos houter hw0
    intro e he
    rw [hevs] at he
    rcases hev e he with hmem | hgood
    · exact absurd hmem (by simp)
    · exact hgood

/-! ### C2 — spaces in the output for `initialLetters = ["h", "w"]` -/

theorem outerLoop_nil_inv (m : TFModel) (td : TextData) (temperature : ℝ)
    (us : ℕ → ℝ) (hasCb : Bool) (fuel : ℕ) (i : ℕ) (st stF : GState)
    (h : outerLoop m td temperature us hasCb fuel [] i st = some stF) :
    stF = st := by
  rw [outerLoop] at h
  exact (Option.some.inj h).symm

theorem outerLoop_cons_inv (m : TFModel) (td : TextData) (temperature : ℝ)
    (us : ℕ → ℝ) (hasCb : Bool) (fuel : ℕ) (c : Char) (rest : List Char)
    (i : ℕ) (st stF : GState)
    (h : outerLoop m td temperature us hasCb fuel (c :: rest) i st = some stF) :
    ∃ st3, innerLoop m td temperature us hasCb fuel
        (shiftWindow
          { st with
            gend := st.gend ++ (if 0 < i then [' '] else []) ++ [c]
            evs := st.evs ++ (if 0 < i then [Ev.sep] else []) ++ [Ev.letter c] }
          ((td.textToIndices c).getD 0 0)) = some st3 ∧
      outerLoop m td temperature us hasCb fuel rest (i + 1) st3 = some stF := by
  rw [outerLoop] at h
  set stw := shiftWindow
    { st with
      gend := st.gend ++ (if 0 < i then [' '] else []) ++ [c]
      evs := st.evs ++ (if 0 < i then [Ev.sep] else []) ++ [Ev.letter c] }
    ((td.textToIndices c).getD 0 0) with hstw
  cases hinn : innerLoop m td temperature us hasCb fuel stw with
  | none => rw [hinn] at h; exact absurd h (by simp)
  | some s => rw [hinn] at h; exact ⟨s, rfl, h⟩

theorem block_filterMap_genEx (hasCb : Bool) (c : Char) :
    ([Ev.gen c] ++ (if hasCb then [Ev.cb c] else []) ++ [Ev.app c]).filterMap genEx
      = [c] := by
  cases hasCb <;> simp [genEx]

theorem block_filterMap_keepSep (hasCb : Bool) (c : Char) :
    ([Ev.gen c] ++ (if hasCb then [Ev.cb c] else []) ++ [Ev.app c]).filterMap keepSep
      = [] := by
  cases hasCb <;> simp [keepSep]

/-- C2 (amended) — for `initialLetters = ["h", "w"]`, exactly one space
separator is inserted by `generateText` itself (the `sep` events of any
completed run are exactly one, at the start of the second segment), and
the total number of literal space characters in the output is `1` plus
the number of literal spaces among the sampled winner characters — the
inner loop's generated characters (for example a word terminated by a
sampled `' '`) also land in the output, so the output contains exactly
one space only when no winner character is a space. -/
theorem generateText_hw_space_count (m : TFModel) (td : TextData) (h0 : Heap)
    (seedRef : ℕ) (temperature : ℝ) (hasCb : Bool) (us : ℕ → ℝ) (fuel : ℕ) :
    ∀ out evs h', generateText m td h0 seedRef ['h', 'w'] temperature hasCb us fuel
        = some (out, evs, h') →
      out.count ' ' = 1 + (gens evs).count ' ' ∧ evs.filterMap keepSep = [Ev.sep] := by
  intro out evs h' hsome
  rw [generateText] at hsome
  cases houter : outerLoop m td temperature us hasCb fuel ['h', 'w'] 0
      ⟨(sliceAll h0 seedRef).1, (sliceAll h0 seedRef).2, [], [], 0⟩ with
  | none => rw [houter] at hsome; exact absurd hsome (by simp)
  | some stF =>
    rw [houter] at hsome
    obtain ⟨hout, hevs⟩ : out = stF.gend ∧ evs = stF.evs := by
      have := Option.some.inj hsome
      exact ⟨(congrArg (fun x => x.1) this).symm, (congrArg (fun x => x.2.1) this).symm⟩
    obtain ⟨st3, hin1, hrest⟩ := outerLoop_cons_inv m td temperature us hasCb fuel
      'h' ['w'] 0 _ stF houter
    obtain ⟨st6, hin2, hnil⟩ := outerLoop_cons_inv m td temperature us hasCb fuel
      'w' [] (0 + 1) st3 stF hrest
    have hstF : stF = st6 := outerLoop_nil_inv m td temperature us hasCb fuel _ st6 stF hnil
    obtain ⟨ws0, _, hg0, hf0⟩ := innerLoop_proj m td temperature us hasCb fuel _ st3 hin1
    obtain ⟨ws1, _, hg1, hf1⟩ := innerLoop_proj m td temperature us hasCb fuel _ st6 hin2
    rw [shiftWindow_gend] at hg0 hg1
    have hbgen : ∀ ws : List Char, ws.flatMap (fun c =>
        ([Ev.gen c] ++ (if hasCb then [Ev.cb c] else []) ++ [Ev.app c]).filterMap genEx)
        = ws := by
      intro ws
      induction ws with
      | nil => rfl
      | cons x xs ihx =>
        rw [List.flatMap_cons, block_filterMap_genEx, ihx]
        rfl
    have hbsep : ∀ ws : List Char, ws.flatMap (fun c =>
        ([Ev.gen c] ++ (if hasCb then [Ev.cb c] else []) ++ [Ev.app c]).filterMap keepSep)
        = [] := by
      intro ws
      induction ws with
      | nil => rfl
      | cons x xs ihx =>
        rw [List.flatMap_cons, block_filterMap_keepSep, ihx]
        rfl
    constructor
    · have hgens : gens evs = ws0 ++ ws1 := by
        rw [hevs, hstF, gens, hf1 Char genEx (fun b a => rfl) (fun w => rfl),
          hbgen, shiftWindow_evs]
        simp only [List.filterMap_append]
        rw [hf0 Char genEx (fun b a => rfl) (fun w => rfl), hbgen, shiftWindow_evs]
        simp only [List.filterMap_append]
        simp [genEx]
      rw [hout, hstF, hg1, hg0, hgens]
      simp [List.count_append, List.count_cons]
      ring
    · rw [hevs, hstF, hf1 Ev keepSep (fun b a => rfl) (fun w => rfl),
        hbsep, shiftWindow_evs]
      simp only [List.filterMap_append]
      rw [hf0 Ev keepSep (fun b a => rfl) (fun w => rfl), hbsep, shiftWindow_evs]
      simp only [List.filterMap_append]
      simp [keepSep]

/-! ### A concrete model for counterexamples and witnesses

A window of length 1 over a two-character vocabulary `['a', ' ']`; the
model always puts probability 1 on the space character, and the uniform
stream always draws 0, so every inner iteration deterministically
generates one space and terminates its word at once. -/

def mOne : TFModel := ⟨1, 2, fun _ => [(0:ℝ), 1]⟩

def tdOne : TextData := ⟨fun _ => [0], fun i => if i = 1 then ' ' else 'a'⟩

def usZero : ℕ → ℝ := fun _ => 0

theorem eval_sample01 : sample [(0:ℝ), 1] 1 0 = 1 := by
  have hmax : max (1:ℝ) (1/1000000) = 1 := max_eq_left (by norm_num)
  rw [sample, hmax]
  norm_num [xrLog, multinomialDraw, softmaxProbs, xrDivPos, xrExp, drawAux,
    Real.log_one, Real.exp_zero]

theorem jsIsSpace_space : jsIsSpace ' ' = true := by decide

/-- One-letter run of the concrete model: the generated text is `"h "`
and the trace shows the callback firing between `gen` and `app`. -/
theorem eval_runH :
    generateText mOne tdOne [[0]] 0 ['h'] 1 true usZero 1
      = some (['h', ' '],
        [Ev.letter 'h', Ev.shiftEv [0] [0], Ev.predictEv [0], Ev.gen ' ', Ev.cb ' ',
          Ev.app ' ', Ev.shiftEv [0] [1]],
        [[0], [0], [0], [1]]) := by
  show generateText mOne tdOne [[0]] 0 ['h'] 1 true usZero (0 + 1) = _
  simp only [generateText, outerLoop, innerLoop, innerStep, winnerCharOf,
    winnerIndexOf, shiftWindow, sliceAll, sliceOne, pushRef, heapAlloc, heapSet,
    heapGet, mOne, tdOne, usZero, List.getD]
  norm_num [eval_sample01, jsIsSpace_space]

/-- Two-letter run of the concrete model: both words terminate with a
*sampled* space character, so the output `"h  w "` contains three literal
spaces — the inserted separator plus the two generated terminators. -/
theorem eval_runHW :
    generateText mOne tdOne [[0]] 0 ['h', 'w'] 1 true usZero 1
      = some (['h', ' ', ' ', 'w', ' '],
        [Ev.letter 'h', Ev.shiftEv [0] [0], Ev.predictEv [0], Ev.gen ' ', Ev.cb ' ',
          Ev.app ' ', Ev.shiftEv [0] [1], Ev.sep, Ev.letter 'w', Ev.shiftEv [1] [0],
          Ev.predictEv [0], Ev.gen ' ', Ev.cb ' ', Ev.app ' ', Ev.shiftEv [0] [1]],
        [[0], [0], [0], [1], [0], [1]]) := by
  show generateText mOne tdOne [[0]] 0 ['h', 'w'] 1 true usZero (0 + 1) = _
  simp only [generateText, outerLoop, innerLoop, innerStep, winnerCharOf,
    winnerIndexOf, shiftWindow, sliceAll, sliceOne, pushRef, heapAlloc, heapSet,
    heapGet, mOne, tdOne, usZero, List.getD]
  norm_num [eval_sample01, jsIsSpace_space]

/-- C2 counterexample — at the concrete model above (which samples the
space character as each word's terminator) the returned string for
`initialLetters = ["h", "w"]` is `"h  w "`, containing three literal
space characters, not exactly one. -/
theorem generateText_hw_three_spaces :
    (generateText mOne tdOne [[0]] 0 ['h', 'w'] 1 true usZero 1).map
        (fun x => x.1.count ' ') = some 3 ∧ (3 : ℕ) ≠ 1 := by
  constructor
  · rw [eval_runHW]
    rfl
  · decide

/-- Witness for C2 (amended) at the concrete two-letter run: the output
has `3 = 1 + 2` spaces, two of them sampled, and exactly one `sep`. -/
theorem generateText_hw_space_count_witness :
    (generateText mOne tdOne [[0]] 0 ['h', 'w'] 1 true usZero 1
        = some (['h', ' ', ' ', 'w', ' '],
          [Ev.letter 'h', Ev.shiftEv [0] [0], Ev.predictEv [0], Ev.gen ' ', Ev.cb ' ',
            Ev.app ' ', Ev.shiftEv [0] [1], Ev.sep, Ev.letter 'w', Ev.shiftEv [1] [0],
            Ev.predictEv [0], Ev.gen ' ', Ev.cb ' ', Ev.app ' ', Ev.shiftEv [0] [1]],
          [[0], [0], [0], [1], [0], [1]])) ∧
      (['h', ' ', ' ', 'w', ' '] : List Char).count ' '
          = 1 + (gens [Ev.letter 'h', Ev.shiftEv [0] [0], Ev.predictEv [0], Ev.gen ' ',
            Ev.cb ' ', Ev.app ' ', Ev.shiftEv [0] [1], Ev.sep, Ev.letter 'w',
            Ev.shiftEv [1] [0], Ev.predictEv [0], Ev.gen ' ', Ev.cb ' ', Ev.app ' ',
            Ev.shiftEv [0] [1]]).count ' ' ∧
        [Ev.letter 'h', Ev.shiftEv [0] [0], Ev.predictEv [0], Ev.gen ' ', Ev.cb ' ',
          Ev.app ' ', Ev.shiftEv [0] [1], Ev.sep, Ev.letter 'w', Ev.shiftEv [1] [0],
          Ev.predictEv [0], Ev.gen ' ', Ev.cb ' ', Ev.app ' ',
          Ev.shiftEv [0] [1]].filterMap keepSep = [Ev.sep] :=
  ⟨eval_runHW,
    generateText_hw_space_count mOne tdOne [[0]] 0 1 true usZero 1 _ _ _ eval_runHW⟩

/-- C3 counterexample — at the concrete one-letter run the trace,
restricted to callback and append events, is `[cb ' ', app ' ']`: the
callback completed *before* the character was appended, so the spec's
"invoked after the character is appended" ordering is false. -/
theorem generateText_onChar_order_cex :
    (generateText mOne tdOne [[0]] 0 ['h'] 1 true usZero 1
        = some (['h', ' '],
          [Ev.letter 'h', Ev.shiftEv [0] [0], Ev.predictEv [0], Ev.gen ' ', Ev.cb ' ',
            Ev.app ' ', Ev.shiftEv [0] [1]],
          [[0], [0], [0], [1]])) ∧
      ¬ onCharAfterAppend [Ev.letter 'h', Ev.shiftEv [0] [0], Ev.predictEv [0],
          Ev.gen ' ', Ev.cb ' ', Ev.app ' ', Ev.shiftEv [0] [1]] := by
  refine ⟨eval_runH, ?_⟩
  unfold onCharAfterAppend
  decide

/-- Witness for C3 (amended) at the concrete one-letter run. -/
theorem generateText_onChar_before_append_witness :
    (generateText mOne tdOne [[0]] 0 ['h'] 1 true usZero 1
        = some (['h', ' '],
          [Ev.letter 'h', Ev.shiftEv [0] [0], Ev.predictEv [0], Ev.gen ' ', Ev.cb ' ',
            Ev.app ' ', Ev.shiftEv [0] [1]],
          [[0], [0], [0], [1]])) ∧
      [Ev.letter 'h', Ev.shiftEv [0] [0], Ev.predictEv [0], Ev.gen ' ', Ev.cb ' ',
          Ev.app ' ', Ev.shiftEv [0] [1]].filterMap keepCbApp
        = (gens [Ev.letter 'h', Ev.shiftEv [0] [0], Ev.predictEv [0], Ev.gen ' ',
            Ev.cb ' ', Ev.app ' ', Ev.shiftEv [0] [1]]).flatMap
            fun c => [Ev.cb c, Ev.app c] :=
  ⟨eval_runH,
    generateText_onChar_before_append mOne tdOne [[0]] 0 ['h'] 1 usZero 1 _ _ _ eval_runH⟩

/-- Witness for C9 at the concrete one-letter run. -/
theorem generateText_onChar_once_per_char_witness :
    (generateText mOne tdOne [[0]] 0 ['h'] 1 true usZero 1
        = some (['h', ' '],
          [Ev.letter 'h', Ev.shiftEv [0] [0], Ev.predictEv [0], Ev.gen ' ', Ev.cb ' ',
            Ev.app ' ', Ev.shiftEv [0] [1]],
          [[0], [0], [0], [1]])) ∧
      [Ev.letter 'h', Ev.shiftEv [0] [0], Ev.predictEv [0], Ev.gen ' ', Ev.cb ' ',
          Ev.app ' ', Ev.shiftEv [0] [1]].filterMap keepGenCb
        = (gens [Ev.letter 'h', Ev.shiftEv [0] [0], Ev.predictEv [0], Ev.gen ' ',
            Ev.cb ' ', Ev.app ' ', Ev.shiftEv [0] [1]]).flatMap
            fun c => [Ev.gen c, Ev.cb c] :=
  ⟨eval_runH,
    generateText_onChar_once_per_char mOne tdOne [[0]] 0 ['h'] 1 usZero 1 _ _ _ eval_runH⟩

/-- Witness for C8 at the concrete two-letter run, checked on the last
recorded mutation `[0] ↦ [1]`. -/
theorem generateText_window_invariant_witness :
    ((heapGet [[0]] 0).length = mOne.sampleLen ∧ 0 < mOne.sampleLen) ∧
      GoodShift mOne.sampleLen (Ev.shiftEv [0] [1]) :=
  ⟨⟨rfl, by norm_num [mOne]⟩,
    generateText_window_invariant mOne tdOne [[0]] 0 ['h', 'w'] 1 true usZero 1
      rfl (by norm_num [mOne]) _ _ _ eval_runHW (Ev.shiftEv [0] [1]) (by decide)⟩

/-- Witness for C7 at a concrete empty-letters run. -/
theorem generateText_empty_initialLetters_witness :
    generateText mOne tdOne [[0]] 0 [] 1 false usZero 0 = some ([], [], [[0], [0]]) :=
  (generateText_empty_initialLetters mOne tdOne [[0]] 0 1 false usZero 0).1

end ModelFromInitials
